import Mathlib

/-!
Verification of the card detection / recognition pipeline of the
cube-card-tracker repository against its natural-language specification.

The Python services are shallowly embedded:
  - machine floats of the statistics code are modelled as exact rationals;
  - numpy/scipy signal primitives (`find_peaks`, image means) are abstracted
    as parameters, constrained only by their documented output ranges;
  - file system, database sessions and debug image dumps are out of scope.
Each section names the Python source file and function it embeds.
-/

/-! ### Generic helpers (Python / numpy primitives) -/

/-- Python `int()` applied to a (nonnegative or negative) rational:
truncation toward zero. -/
def pytrunc (q : ℚ) : ℤ := if 0 ≤ q then ⌊q⌋ else ⌈q⌉

/-- Insert into a sorted list according to the boolean order `le`
(insertion goes after existing elements that compare `le` first,
matching a stable sort). -/
def insertBy (le : α → α → Bool) (x : α) : List α → List α
  | [] => [x]
  | y :: ys => if le x y then x :: y :: ys else y :: insertBy le x ys

/-- Sorting by a boolean order, as Python `sorted` (stable when `le` is a
total preorder; where area ties matter below, `le` is made antisymmetric by
a tiebreak so the result is the unique sorted permutation). -/
def sortBy (le : α → α → Bool) (l : List α) : List α := l.foldr (insertBy le) []

/-- Sorted list of integers in ascending order (numpy sorts values before
computing percentiles). -/
def isort (l : List ℤ) : List ℤ := sortBy (fun a b => decide (a ≤ b)) l

/-- Consecutive differences: `np.diff`. -/
def gapsOf : List ℤ → List ℤ
  | a :: b :: rest => (b - a) :: gapsOf (b :: rest)
  | _ => []

/-- Arithmetic mean of an integer list, as a rational (`np.mean`). -/
def npmean (l : List ℤ) : ℚ := ((l.foldl (· + ·) 0 : ℤ) : ℚ) / (l.length : ℚ)

/-- Linear interpolation of a sorted integer list at a virtual (rational)
index: the value between the order statistics at `⌊idx⌋` and `⌊idx⌋ + 1`
(the upper index clamped to the last position, as numpy does). -/
def interpAt (s : List ℤ) (idx : ℚ) : ℚ :=
  if s.length = 0 then 0
  else
    ((s.getD ⌊idx⌋.toNat 0 : ℤ) : ℚ) +
      (idx - ((⌊idx⌋ : ℤ) : ℚ)) *
        (((s.getD (min (⌊idx⌋.toNat + 1) (s.length - 1)) 0 : ℤ) : ℚ) -
          ((s.getD ⌊idx⌋.toNat 0 : ℤ) : ℚ))

/-- Linear-interpolation percentile of an integer list (`np.percentile`
with the default interpolation: virtual index `p/100 * (n-1)`, value
interpolated between the two neighbouring order statistics). -/
def percentile (l : List ℤ) (p : ℚ) : ℚ :=
  interpAt (isort l) (p * ((l.length : ℚ) - 1) / 100)

/-- Median, i.e. `np.median` = 50th percentile with linear interpolation (mean of the two
middle order statistics for even length). -/
def npmedian (l : List ℤ) : ℚ := percentile l 50

/-! ### Peak pruner
Embeds `DetectionService._prune_peaks`
(src/backend/app/services/detection_service.py, lines 305-334). -/

/-- The walk of `_prune_peaks`: `prev` is the immediately preceding *input*
peak (the Python loop reads `peaks[i] - peaks[i - 1]`, whether or not
`peaks[i-1]` was kept).  A gap above `m * maxGapFactor` stops the walk; a
gap below `m * 0.55` drops the peak but continues. -/
def pruneWalk (m maxGapFactor : ℚ) : ℤ → List ℤ → List ℤ
  | _, [] => []
  | prev, p :: rest =>
    if m * maxGapFactor < ((p - prev : ℤ) : ℚ) then []
    else if ((p - prev : ℤ) : ℚ) < m * (11/20) then pruneWalk m maxGapFactor p rest
    else p :: pruneWalk m maxGapFactor p rest

/-- Robust typical gap of `_prune_peaks`: median of the gaps at or below
their 75th percentile, falling back to the median of all gaps if the
filtered list is empty. -/
def robustGap (gaps : List ℤ) : ℚ :=
  let q75 := percentile gaps 75
  let core := gaps.filter (fun (g : ℤ) => decide ((g : ℚ) ≤ q75))
  if core.isEmpty then npmedian gaps else npmedian core

/-- Embeds `DetectionService._prune_peaks` (default `maxGapFactor = 1.55 = 31/20`).
The wildcard case is the Python guard `if len(peaks) < 3: return peaks`;
otherwise the first peak is kept and the rest are walked with `pruneWalk`. -/
def prune_peaks (peaks : List ℤ) (maxGapFactor : ℚ) : List ℤ :=
  match peaks with
  | p0 :: p1 :: p2 :: rest =>
    p0 :: pruneWalk (robustGap (gapsOf (p0 :: p1 :: p2 :: rest))) maxGapFactor p0
      (p1 :: p2 :: rest)
  | short => short

/-- The walk as the specification describes it: the gap is measured from the
previous KEPT peak (`lastKept` is left unchanged when a peak is dropped).
Modelled from the spec words, for comparison with the source's `pruneWalk`. -/
def keptWalk (m maxGapFactor : ℚ) : ℤ → List ℤ → List ℤ
  | _, [] => []
  | lastKept, p :: rest =>
    if m * maxGapFactor < ((p - lastKept : ℤ) : ℚ) then []
    else if ((p - lastKept : ℤ) : ℚ) < m * (11/20) then keptWalk m maxGapFactor lastKept rest
    else p :: keptWalk m maxGapFactor p rest

/-- The pruner as claimed by the specification (gap measured from the
previous kept peak); the statistics part is identical to the source. -/
def prune_peaks_claim (peaks : List ℤ) (maxGapFactor : ℚ) : List ℤ :=
  match peaks with
  | p0 :: p1 :: p2 :: rest =>
    p0 :: keptWalk (robustGap (gapsOf (p0 :: p1 :: p2 :: rest))) maxGapFactor p0
      (p1 :: p2 :: rest)
  | short => short

/-- Walk over the list of (inter-peak gap, peak) pairs: stop on a gap above
`m * maxGapFactor`, skip a peak on a gap below `m * 0.55`, keep otherwise. -/
def gapWalk (m maxGapFactor : ℚ) : List (ℤ × ℤ) → List ℤ
  | [] => []
  | (g, p) :: rest =>
    if m * maxGapFactor < (g : ℚ) then []
    else if (g : ℚ) < m * (11/20) then gapWalk m maxGapFactor rest
    else p :: gapWalk m maxGapFactor rest

/-- The pruner described over inter-peak gaps (each gap between consecutive
input peaks), the amended reading of the specification sentence. -/
def prune_peaks_spec (peaks : List ℤ) (maxGapFactor : ℚ) : List ℤ :=
  match peaks with
  | p0 :: p1 :: p2 :: rest =>
    p0 :: gapWalk (robustGap (gapsOf (p0 :: p1 :: p2 :: rest))) maxGapFactor
      ((gapsOf (p0 :: p1 :: p2 :: rest)).zip (p1 :: p2 :: rest))
  | short => short

/-- Front part of the peak list up to (and excluding) the first inter-peak
gap exceeding `m * maxGapFactor`. -/
def frontWalk (m maxGapFactor : ℚ) : ℤ → List ℤ → List ℤ
  | _, [] => []
  | prev, p :: rest =>
    if m * maxGapFactor < ((p - prev : ℤ) : ℚ) then []
    else p :: frontWalk m maxGapFactor p rest

/-- The peaks not lying past the first gap exceeding `maxGapFactor` times
the robust median gap (the whole list when it has fewer than 3 peaks). -/
def stopFront (peaks : List ℤ) (maxGapFactor : ℚ) : List ℤ :=
  match peaks with
  | p0 :: p1 :: p2 :: rest =>
    p0 :: frontWalk (robustGap (gapsOf (p0 :: p1 :: p2 :: rest))) maxGapFactor p0
      (p1 :: p2 :: rest)
  | short => short

/-! ### Overlap suppressor
Embeds `DetectionService._nms`
(src/backend/app/services/detection_service.py, lines 336-359). -/

/-- Axis-aligned box `(x, y, w, h)` in image coordinates (the `BBox` tuple
of detection_service.py). -/
structure BBox where
  x : ℤ
  y : ℤ
  w : ℤ
  h : ℤ
deriving DecidableEq

/-- Box area, the sort key of `_nms`. -/
def area (b : BBox) : ℤ := b.w * b.h

/-- Width of the intersection of two boxes (`ix2 - ix1`). -/
def interW (b1 b2 : BBox) : ℤ := min (b1.x + b1.w) (b2.x + b2.w) - max b1.x b2.x

/-- Height of the intersection of two boxes (`iy2 - iy1`). -/
def interH (b1 b2 : BBox) : ℤ := min (b1.y + b1.h) (b2.y + b2.h) - max b1.y b2.y

/-- Intersection area (only meaningful when both factors are positive). -/
def interA (b1 b2 : BBox) : ℤ := interW b1 b2 * interH b1 b2

/-- Union area as computed by `_nms`. -/
def unionA (b1 b2 : BBox) : ℤ := area b1 + area b2 - interA b1 b2

/-- The suppression test of `_nms`: empty intersections are skipped
(`ix2 <= ix1 or iy2 <= iy1`), otherwise the box is suppressed when
`union > 0 and inter / union >= iou_thresh`. -/
def iouGE (b1 b2 : BBox) (thr : ℚ) : Bool :=
  if interW b1 b2 ≤ 0 ∨ interH b1 b2 ≤ 0 then false
  else decide (0 < unionA b1 b2) &&
    decide (thr ≤ (interA b1 b2 : ℚ) / (unionA b1 b2 : ℚ))

/-- Intersection-over-union of two boxes (0 when they do not overlap). -/
def iou (b1 b2 : BBox) : ℚ :=
  if interW b1 b2 ≤ 0 ∨ interH b1 b2 ≤ 0 then 0
  else (interA b1 b2 : ℚ) / (unionA b1 b2 : ℚ)

/-- Python `boxes[i]` (indices produced below are always in range, so the
default is never returned). -/
def bboxD (boxes : List BBox) (i : ℕ) : BBox := boxes.getD i ⟨0, 0, 0, 0⟩

/-- Iteration order of `_nms`: indices sorted by area descending, ties by
input order (Python's stable `sorted(..., reverse=True)`; the index
tiebreak makes the order total so the sorted result is unique). -/
def nmsOrder (boxes : List BBox) : List ℕ :=
  sortBy
    (fun i j =>
      decide (area (bboxD boxes j) < area (bboxD boxes i) ∨
        (area (bboxD boxes i) = area (bboxD boxes j) ∧ i ≤ j)))
    (List.range boxes.length)

/-- One step of the inner loop of `_nms`: skip already-suppressed boxes and
the kept box itself, else suppress `j` when the IoU test passes. -/
def innerStep (boxes : List BBox) (thr : ℚ) (i : ℕ) (s : List ℕ) (j : ℕ) : List ℕ :=
  if j ∈ s ∨ j = i then s
  else if iouGE (bboxD boxes i) (bboxD boxes j) thr then j :: s else s

/-- The inner `for j in order` loop of `_nms`, growing the suppressed set. -/
def nmsInner (boxes : List BBox) (thr : ℚ) (i : ℕ) (ord sup : List ℕ) : List ℕ :=
  ord.foldl (innerStep boxes thr i) sup

/-- The outer `for i in order` loop of `_nms`, returning kept indices. -/
def nmsLoop (boxes : List BBox) (thr : ℚ) (ord : List ℕ) :
    List ℕ → List ℕ → List ℕ
  | [], _ => []
  | i :: rest, sup =>
    if i ∈ sup then nmsLoop boxes thr ord rest sup
    else i :: nmsLoop boxes thr ord rest (nmsInner boxes thr i ord sup)

/-- Embeds `DetectionService._nms`: greedy IoU suppression, largest area first. -/
def nms (boxes : List BBox) (thr : ℚ) : List BBox :=
  if boxes.isEmpty then []
  else (nmsLoop boxes thr (nmsOrder boxes) (nmsOrder boxes) []).map (bboxD boxes)

/-! ### Card detection
Embeds `DetectionService.detect_cards`
(src/backend/app/services/detection_service.py, lines 166-276).  The image
itself is abstracted: column separators and raw title peaks are parameters
standing for the `find_peaks` results on the (abstracted) intensity
profiles, and the brightness gate is an abstract boolean on the padded
column range.  Debug output and logging are omitted. -/

/-- The geometry-relevant fields of `DetectionConfig`
(detection_service.py, lines 54-85).  Fields used only inside the
abstracted signal-processing steps (prominences, distances, smoothing
windows, brightness threshold) are not represented. -/
structure DetectionConfig where
  col_min_width_px : ℤ
  col_x_padding : ℤ
  col_min_peaks : ℕ
  title_fraction : ℚ
  title_min_px : ℤ
  title_max_px : ℤ
  peak_top_offset : ℤ
  nms_iou_threshold : ℚ

/-- The dataclass defaults: width 100, padding 4, 8 peaks, fraction 0.40,
title height clamped to [22, 80], peak offset 8, IoU threshold 0.40. -/
def defaultConfig : DetectionConfig :=
  ⟨100, 4, 8, 2/5, 22, 80, 8, 2/5⟩

/-- Clamp `th = max(title_min_px, min(th, title_max_px))`. -/
def clampTitle (cfg : DetectionConfig) (t : ℤ) : ℤ :=
  max cfg.title_min_px (min t cfg.title_max_px)

/-- Title height `int(np.diff(peaks).mean() * title_fraction)`, clamped. -/
def titleHeight (cfg : DetectionConfig) (peaks : List ℤ) : ℤ :=
  clampTitle cfg (pytrunc (npmean (gapsOf peaks) * cfg.title_fraction))

/-- One title-strip box: `ty1 = max(0, peak - peak_top_offset)`,
`ty2 = min(img_h, ty1 + th)`, box `(x1, ty1, x2 - x1, ty2 - ty1)`. -/
def mkTitleBox (cfg : DetectionConfig) (img_h x1 x2 th p : ℤ) : BBox :=
  ⟨x1, max 0 (p - cfg.peak_top_offset), x2 - x1,
    min img_h (max 0 (p - cfg.peak_top_offset) + th) - max 0 (p - cfg.peak_top_offset)⟩

/-- Consecutive pairs of a list: `col_ranges` from `col_bounds`. -/
def pairsOf : List ℤ → List (ℤ × ℤ)
  | a :: b :: rest => (a, b) :: pairsOf (b :: rest)
  | _ => []

/-- The per-column loop of `detect_cards` (steps 2-4): width gate,
brightness gate on the padded strip, title peaks (sorted then pruned),
peak-count gate, title height with the cross-column fallback threading,
and one box per peak. -/
def processCols (cfg : DetectionConfig) (img_h : ℤ) (rawPeaks : ℤ → ℤ → List ℤ)
    (bright : ℤ → ℤ → Bool) : List (ℤ × ℤ) → ℤ → List BBox
  | [], _ => []
  | (cx1, cx2) :: rest, fallback =>
    if cx2 - cx1 < cfg.col_min_width_px then
      processCols cfg img_h rawPeaks bright rest fallback
    else if bright (cx1 + cfg.col_x_padding) (cx2 - cfg.col_x_padding) = false then
      processCols cfg img_h rawPeaks bright rest fallback
    else
      let peaks :=
        prune_peaks
          (isort (rawPeaks (cx1 + cfg.col_x_padding) (cx2 - cfg.col_x_padding)))
          (31/20)
      let th := if 2 ≤ peaks.length then titleHeight cfg peaks else fallback
      if peaks.length < cfg.col_min_peaks then
        processCols cfg img_h rawPeaks bright rest fallback
      else
        (peaks.map
            (mkTitleBox cfg img_h (cx1 + cfg.col_x_padding) (cx2 - cfg.col_x_padding)
              th)) ++
          processCols cfg img_h rawPeaks bright rest th

/-- Reading-order key of the final sort: `(x, y)` lexicographic (Python's
stable sort; ties beyond the key are irrelevant to the properties below). -/
def boxLe (a b : BBox) : Bool :=
  decide (a.x < b.x ∨ (a.x = b.x ∧ a.y ≤ b.y))

/-- Embeds `DetectionService.detect_cards`: column ranges from the separators
(image edges as implicit bounds), per-column boxes, NMS, reading-order
sort. -/
def detect_cards (cfg : DetectionConfig) (img_w img_h : ℤ) (seps : List ℤ)
    (rawPeaks : ℤ → ℤ → List ℤ) (bright : ℤ → ℤ → Bool) : List BBox :=
  sortBy boxLe
    (nms
      (processCols cfg img_h rawPeaks bright (pairsOf (0 :: seps ++ [img_w]))
        cfg.title_min_px)
      cfg.nms_iou_threshold)

/-- The box invariant of the specification: positive size, fully inside the
image. -/
def inBounds (img_w img_h : ℤ) (b : BBox) : Prop :=
  0 ≤ b.x ∧ 0 ≤ b.y ∧ 0 < b.w ∧ 0 < b.h ∧ b.x + b.w ≤ img_w ∧ b.y + b.h ≤ img_h

/-! ### OCR post-processing
Embeds `OCRService._clean` (src/backend/app/services/ocr_service.py,
lines 59-66): `text.strip()`, then `re.sub(r"[^A-Za-z ',\x2d]", '', text)`,
then `re.sub(r'\s+', ' ', text).strip()`.  Strings are modelled as lists of
characters; Python whitespace is the ASCII whitespace set. -/

/-- ASCII whitespace as matched by Python `str.strip` / regex `\s`. -/
def pySpace (c : Char) : Bool :=
  c == ' ' || c == '\t' || c == '\n' || c == '\r' || c == '\x0b' || c == '\x0c'

/-- The character class kept by `_clean`'s first substitution:
`[A-Za-z ',-]` — letters, space, apostrophe, comma, hyphen. -/
def allowedChar (c : Char) : Bool :=
  decide ('A' ≤ c ∧ c ≤ 'Z') || decide ('a' ≤ c ∧ c ≤ 'z') || c == ' ' ||
    c == Char.ofNat 39 || c == ',' || c == '-'

/-- The permitted set as the specification words it: letters, space,
apostrophe, hyphen (no comma).  Modelled from the spec for comparison. -/
def specAllowed (c : Char) : Bool :=
  decide ('A' ≤ c ∧ c ≤ 'Z') || decide ('a' ≤ c ∧ c ≤ 'z') || c == ' ' ||
    c == Char.ofNat 39 || c == '-'

/-- Python `str.strip()`: drop whitespace from both ends. -/
def pyStripChars (l : List Char) : List Char :=
  ((l.dropWhile pySpace).reverse.dropWhile pySpace).reverse

/-- Whitespace collapse `re.sub(r'\s+', ' ', -)`: replace each maximal whitespace run by one
space (`prev` records whether the previous character was whitespace). -/
def collapseWS : Bool → List Char → List Char
  | _, [] => []
  | prev, c :: rest =>
    if pySpace c then
      if prev then collapseWS true rest else ' ' :: collapseWS true rest
    else c :: collapseWS false rest

/-- Embeds `OCRService._clean`. -/
def ocrClean (l : List Char) : List Char :=
  pyStripChars (collapseWS false ((pyStripChars l).filter allowedChar))

/-! ### Card name catalog
Embeds `CardDatabaseService` (src/backend/app/services/card_db_service.py):
`_load` (lines 34-74), `ensure_loaded` (28-32), `fuzzy_match` (81-107) and
`search` (109-116).  The rapidfuzz scorer `fuzz.WRatio` is abstracted as a
rational-valued function parameter; `process.extractOne` is modelled by its
documented behaviour (best-scoring choice at or above the cutoff, earliest
on ties). -/

/-- A parsed JSON array element: a plain string, an object carrying a
`name` field, or anything else (skipped by `_load`). -/
inductive JItem where
  | str (s : String)
  | obj (name : String)
  | skipped

/-- A parsed JSON document: a top-level list, an object with a `data`
list (Scryfall bulk format), or any other shape (ignored). -/
inductive JsonDoc where
  | arr (items : List JItem)
  | dataObj (items : List JItem)
  | other

/-- The split marker of multi-faced card names. -/
def faceSep : List Char := [' ', '/', '/', ' ']

/-- Characters before the first occurrence of `" // "`:
Python `s.split(' // ')[0]`. -/
def beforeSep : List Char → List Char
  | [] => []
  | c :: rest =>
    if List.isPrefixOf faceSep (c :: rest) then [] else c :: beforeSep rest

/-- First face of a (possibly multi-faced) card name. -/
def firstFace (s : String) : String := ⟨beforeSep s.data⟩

/-- Python `str.strip` on a `String`. -/
def pyStripS (s : String) : String := ⟨pyStripChars s.data⟩

/-- Comment-line test on a (stripped) text line: Python
`line.startswith('#')`. -/
def isCommentLine (s : String) : Bool :=
  match s.data with
  | c :: _ => c == '#'
  | [] => false

/-- Names contributed by one JSON array element: plain strings are
stripped and kept whole, objects keep only the first face, everything
else is skipped. -/
def itemNames : JItem → List String
  | .str s => [pyStripS s]
  | .obj name => [pyStripS (firstFace name)]
  | .skipped => []

/-- Names contributed by one JSON document: in the `data` of a Scryfall
bulk object only `name`-carrying objects count. -/
def docNames : JsonDoc → List String
  | .arr items => items.foldr (fun it acc => itemNames it ++ acc) []
  | .dataObj items =>
    items.foldr
      (fun it acc =>
        (match it with
          | .obj name => [pyStripS (firstFace name)]
          | _ => []) ++ acc)
      []
  | .other => []

/-- Names contributed by one text file: stripped lines, skipping empty
lines and `#` comments. -/
def txtNames (lines : List String) : List String :=
  lines.foldr
    (fun ln acc =>
      (if pyStripS ln = "" ∨ isCommentLine (pyStripS ln) = true then []
        else [pyStripS ln]) ++ acc)
    []

/-- All names collected by `_load` before deduplication. -/
def allRaw (jsons : List JsonDoc) (txts : List (List String)) : List String :=
  (jsons.foldr (fun d acc => docNames d ++ acc) []) ++
    (txts.foldr (fun t acc => txtNames t ++ acc) [])

/-- Code-point lexicographic order on character lists (Python string
comparison). -/
def charListLt : List Char → List Char → Bool
  | [], [] => false
  | [], _ :: _ => true
  | _ :: _, [] => false
  | a :: as, b :: bs => if a < b then true else if b < a then false else charListLt as bs

/-- Python string `<=`. -/
def strLe (a b : String) : Bool := charListLt a.data b.data || a == b

/-- Embeds `CardDatabaseService._load`: the union of all sources as a
deduplicated, sorted list (`self._card_names = sorted(names)` where
`names` is a Python set). -/
def loadNames (jsons : List JsonDoc) (txts : List (List String)) : List String :=
  sortBy strLe (allRaw jsons txts).dedup

/-- Round half to even at integer precision (Python `round` on exact
values; machine floats are modelled as exact rationals). -/
def rhe (x : ℚ) : ℤ :=
  if x - ⌊x⌋ < 1/2 then ⌊x⌋
  else if (1/2 : ℚ) < x - ⌊x⌋ then ⌊x⌋ + 1
  else if ⌊x⌋ % 2 = 0 then ⌊x⌋ else ⌊x⌋ + 1

/-- Python `round(q, 3)`. -/
def round3 (q : ℚ) : ℚ := ((rhe (q * 1000) : ℤ) : ℚ) / 1000

/-- One fold step of `process.extractOne`: keep the incumbent unless the
candidate scores strictly higher (first best wins ties); an incumbent is
only admitted at or above the cutoff. -/
def extractStep (score : String → ℚ) (cutoff : ℚ)
    (best : Option (String × ℚ)) (c : String) : Option (String × ℚ) :=
  match best with
  | none => if cutoff ≤ score c then some (c, score c) else none
  | some (b, s) => if s < score c then some (c, score c) else some (b, s)

/-- Models `rapidfuzz.process.extractOne` with a score cutoff. -/
def extractOne (score : String → ℚ) (cutoff : ℚ)
    (choices : List String) : Option (String × ℚ) :=
  choices.foldl (extractStep score cutoff) none

/-- Embeds the `CardDatabaseService.fuzzy_match` body: empty query or empty catalog
give no match, as does an unavailable rapidfuzz; otherwise the best match
at or above the integer threshold is returned with its score divided by
100 and rounded to 3 decimals. -/
def fuzzy_match (wr : String → String → ℚ) (avail : Bool) (names : List String)
    (query : String) (threshold : ℤ) : Option (String × ℚ) :=
  if query = "" ∨ names = [] then none
  else if avail = false then none
  else
    match extractOne (wr query) ((threshold : ℤ) : ℚ) names with
    | none => none
    | some (n, s) => some (n, round3 (s / 100))

/-! ### Catalog lifecycle
State-machine view of `CardDatabaseService`: `_card_names` and `_loaded`
are the mutable state; `ensure_loaded` is the only operation that writes
it.  `fuzzy_match` and `search` read `self._card_names` directly and never
call `ensure_loaded`; the `card_names` property does. -/

/-- The mutable state of `CardDatabaseService`. -/
structure DBState where
  cardNames : List String
  loaded : Bool
deriving DecidableEq

/-- The state after `__init__`: empty list, not loaded. -/
def dbInit : DBState := ⟨[], false⟩

/-- Embeds `ensure_loaded`: load once; later calls are no-ops. -/
def ensure_loaded (jsons : List JsonDoc) (txts : List (List String))
    (st : DBState) : DBState :=
  if st.loaded then st else ⟨loadNames jsons txts, true⟩

/-- The `card_names` property: triggers the load, then returns the list. -/
def card_names_op (jsons : List JsonDoc) (txts : List (List String))
    (st : DBState) : List String × DBState :=
  ((ensure_loaded jsons txts st).cardNames, ensure_loaded jsons txts st)

/-- Transition of `fuzzy_match`: it reads `self._card_names` as-is
and never calls `ensure_loaded` (the folder contents are irrelevant). -/
def fuzzy_match_op (wr : String → String → ℚ) (avail : Bool) (st : DBState)
    (query : String) (threshold : ℤ) : Option (String × ℚ) × DBState :=
  (fuzzy_match wr avail st.cardNames query threshold, st)

/-- Transition of `search`: top-`limit` names by descending score,
also without triggering a load. -/
def search_op (wr : String → String → ℚ) (avail : Bool) (st : DBState)
    (query : String) (limit : ℕ) : List String × DBState :=
  (if query = "" ∨ avail = false then []
    else (sortBy (fun a b => decide (wr query b ≤ wr query a)) st.cardNames).take limit,
    st)

/-- The lifecycle the specification claims for `fuzzy_match`: the load is
triggered before matching.  Modelled from the spec for comparison. -/
def fuzzy_match_claim_op (wr : String → String → ℚ) (avail : Bool)
    (jsons : List JsonDoc) (txts : List (List String)) (st : DBState)
    (query : String) (threshold : ℤ) : Option (String × ℚ) × DBState :=
  (fuzzy_match wr avail (ensure_loaded jsons txts st).cardNames query threshold,
    ensure_loaded jsons txts st)

/-! ### Check-in service
Embeds `CubeCheckinService._process_card_region`
(src/backend/app/services/cube_checkin_service.py, lines 115-168),
`update_card_name` (lines 207-210) and `Card.display_name`
(src/backend/app/models/__init__.py, lines 152-154).  OCR on the clamped
crop and the thumbnail encoder are abstracted as functions of the crop
rectangle; the database session commit is a persistence side effect
outside the model. -/

/-- Embeds `CardStatus` (models/__init__.py, lines 55-60). -/
inductive CardStatus where
  | DETECTED
  | CONFIRMED
  | DRAFTED
  | RETURNED
  | REMOVED
deriving DecidableEq

/-- The recognition-relevant fields of the `Card` record. -/
structure Card where
  cube_id : ℤ
  raw_ocr_text : String
  recognized_name : Option String
  confirmed_name : Option String
  match_score : ℚ
  status : CardStatus
  bbox_x : ℤ
  bbox_y : ℤ
  bbox_width : ℤ
  bbox_height : ℤ
  polygon : List (ℤ × ℤ)
  thumbnail : String
deriving DecidableEq

/-- Embeds `CubeCheckinService._process_card_region`: clamp the box to the image,
drop crops narrower than 10 px or shorter than 5 px, OCR the crop, fuzzy
match only when the text is non-empty, and always build a DETECTED card
otherwise. -/
def process_card_region (img_w img_h : ℤ) (readText : ℤ → ℤ → ℤ → ℤ → String)
    (fm : String → Option (String × ℚ)) (thumb : ℤ → ℤ → ℤ → ℤ → String)
    (cube_id : ℤ) (bb : BBox) : Option Card :=
  if min img_w (bb.x + bb.w) - max 0 bb.x < 10 ∨
      min img_h (bb.y + bb.h) - max 0 bb.y < 5 then none
  else
    some
      { cube_id := cube_id
        raw_ocr_text :=
          readText (max 0 bb.x) (max 0 bb.y) (min img_w (bb.x + bb.w))
            (min img_h (bb.y + bb.h))
        recognized_name :=
          (if readText (max 0 bb.x) (max 0 bb.y) (min img_w (bb.x + bb.w))
                (min img_h (bb.y + bb.h)) ≠ "" then
              fm (readText (max 0 bb.x) (max 0 bb.y) (min img_w (bb.x + bb.w))
                (min img_h (bb.y + bb.h)))
            else none).map Prod.fst
        confirmed_name := none
        match_score :=
          ((if readText (max 0 bb.x) (max 0 bb.y) (min img_w (bb.x + bb.w))
                (min img_h (bb.y + bb.h)) ≠ "" then
              fm (readText (max 0 bb.x) (max 0 bb.y) (min img_w (bb.x + bb.w))
                (min img_h (bb.y + bb.h)))
            else none).map Prod.snd).getD 0
        status := CardStatus.DETECTED
        bbox_x := max 0 bb.x
        bbox_y := max 0 bb.y
        bbox_width := min img_w (bb.x + bb.w) - max 0 bb.x
        bbox_height := min img_h (bb.y + bb.h) - max 0 bb.y
        polygon :=
          [(max 0 bb.x, max 0 bb.y), (min img_w (bb.x + bb.w), max 0 bb.y),
            (min img_w (bb.x + bb.w), min img_h (bb.y + bb.h)),
            (max 0 bb.x, min img_h (bb.y + bb.h))]
        thumbnail :=
          thumb (max 0 bb.x) (max 0 bb.y) (min img_w (bb.x + bb.w))
            (min img_h (bb.y + bb.h)) }

/-- Embeds `CubeCheckinService.update_card_name`: set the confirmed name and the
CONFIRMED status (the session commit is persistence, not card state). -/
def update_card_name (card : Card) (confirmed : String) : Card :=
  { card with confirmed_name := some confirmed, status := CardStatus.CONFIRMED }

/-- Python `a or b` over optional/empty strings: `None` and `""` are
falsy. -/
def pyOrS : Option String → String → String
  | some s, b => if s = "" then b else s
  | none, b => b

/-- Embeds `Card.display_name`:
`confirmed_name or recognized_name or raw_ocr_text or 'Unknown Card'`. -/
def display_name (c : Card) : String :=
  pyOrS c.confirmed_name
    (pyOrS c.recognized_name
      (if c.raw_ocr_text = "" then "Unknown Card" else c.raw_ocr_text))

/-! ### Theorems -/

theorem insertBy_perm (le : α → α → Bool) (x : α) :
    ∀ l : List α, List.Perm (insertBy le x l) (x :: l) := by
  intro l
  induction l with
  | nil => simp [insertBy]
  | cons y ys ih =>
    by_cases h : le x y = true
    · simp [insertBy, h]
    · simp only [insertBy, h, if_false]
      exact (List.Perm.cons y ih).trans (List.Perm.swap x y ys)

theorem sortBy_perm (le : α → α → Bool) : ∀ l : List α, List.Perm (sortBy le l) l := by
  intro l
  induction l with
  | nil => simp [sortBy]
  | cons y ys ih =>
    simpa [sortBy] using (insertBy_perm le y (sortBy le ys)).trans (List.Perm.cons y ih)

theorem mem_sortBy {le : α → α → Bool} {l : List α} {x : α} :
    x ∈ sortBy le l ↔ x ∈ l := (sortBy_perm le l).mem_iff

/-- Evaluation helper: `Int.toNat` of a numeric literal. -/
theorem toNat_lit (n : ℕ) [n.AtLeastTwo] :
    (OfNat.ofNat n : ℤ).toNat = OfNat.ofNat n := rfl

theorem robustGap_ten : robustGap [10, 3, 3, 10, 10] = 10 := by
  have hs : isort [10, 3, 3, 10, 10] = [3, 3, 10, 10, 10] := by
    norm_num [isort, sortBy, insertBy]
  have h75 : percentile [10, 3, 3, 10, 10] 75 = 10 := by
    have hidx : ⌊(75 * (((5:ℕ):ℚ) - 1) / 100)⌋ = 3 := by norm_num
    rw [percentile, hs]
    norm_num [interpAt, hidx, List.getD]
    simp
  have h50 : percentile [10, 3, 3, 10, 10] 50 = 10 := by
    have hidx : ⌊(50 * (((5:ℕ):ℚ) - 1) / 100)⌋ = 2 := by norm_num
    rw [percentile, hs]
    norm_num [interpAt, hidx, List.getD]
    simp
  rw [robustGap]
  norm_num [h75, npmedian, h50]

theorem gapsOf_cex : gapsOf [0, 10, 13, 16, 26, 36] = [10, 3, 3, 10, 10] := by
  norm_num [gapsOf]

/-- C1 counterexample: the source's walk measures each gap from the
immediately preceding input peak (`peaks[i] - peaks[i-1]`), not from the
previous kept peak as the claim states.  On `[0, 10, 13, 16, 26, 36]` the
robust gap is 10 (thresholds 15.5 / 5.5); after 13 is dropped, the source
compares `16 - 13 = 3` and drops 16, while the claimed walk compares
`16 - 10 = 6` and keeps 16, so the two outputs differ. -/
theorem prune_peaks_kept_gap_cex :
    prune_peaks [0, 10, 13, 16, 26, 36] (31/20) = [0, 10, 26, 36] ∧
      prune_peaks_claim [0, 10, 13, 16, 26, 36] (31/20) = [0, 10, 16, 26, 36] := by
  constructor
  · rw [prune_peaks, gapsOf_cex, robustGap_ten]
    norm_num [pruneWalk]
  · rw [prune_peaks_claim, gapsOf_cex, robustGap_ten]
    norm_num [keptWalk]

theorem pruneWalk_eq_gapWalk (m mg : ℚ) :
    ∀ (rest : List ℤ) (prev : ℤ),
      pruneWalk m mg prev rest = gapWalk m mg ((gapsOf (prev :: rest)).zip rest) := by
  intro rest
  induction rest with
  | nil => intro prev; simp [pruneWalk, gapsOf, gapWalk]
  | cons p t ih =>
    intro prev
    simp only [pruneWalk, gapsOf, List.zip_cons_cons, gapWalk]
    split_ifs <;> simp [ih, List.zip]

/-- C1 (amended): for every input, the pruner computes the robust typical
gap as the median of the inter-peak gaps at or below their 75th percentile,
keeps the first peak, and walks the remaining peaks in input order judging
each by the gap from the immediately preceding input peak: above
`typical x 1.55` stops entirely, below `typical x 0.55` drops the peak and
keeps scanning, otherwise keeps it (inputs of fewer than 3 peaks pass
through unchanged). -/
theorem prune_peaks_eq_spec (peaks : List ℤ) (mg : ℚ) :
    prune_peaks peaks mg = prune_peaks_spec peaks mg := by
  match peaks with
  | [] => rfl
  | [_] => rfl
  | [_, _] => rfl
  | p0 :: p1 :: p2 :: rest =>
    simp only [prune_peaks, prune_peaks_spec]
    exact congrArg _ (pruneWalk_eq_gapWalk _ mg (p1 :: p2 :: rest) p0)

theorem pruneWalk_sublist (m mg : ℚ) :
    ∀ (rest : List ℤ) (prev : ℤ), (pruneWalk m mg prev rest).Sublist rest := by
  intro rest
  induction rest with
  | nil => intro prev; simp [pruneWalk]
  | cons p t ih =>
    intro prev
    simp only [pruneWalk]
    split_ifs
    · exact List.nil_sublist _
    · exact (ih p).trans (List.sublist_cons_self p t)
    · exact (ih p).cons₂ p

theorem prune_peaks_sublist (peaks : List ℤ) (mg : ℚ) :
    (prune_peaks peaks mg).Sublist peaks := by
  match peaks with
  | [] => exact List.Sublist.refl _
  | [_] => exact List.Sublist.refl _
  | [_, _] => exact List.Sublist.refl _
  | p0 :: p1 :: p2 :: rest =>
    exact (pruneWalk_sublist _ _ (p1 :: p2 :: rest) p0).cons₂ p0

theorem pruneWalk_sublist_front (m mg : ℚ) :
    ∀ (rest : List ℤ) (prev : ℤ),
      (pruneWalk m mg prev rest).Sublist (frontWalk m mg prev rest) := by
  intro rest
  induction rest with
  | nil => intro prev; simp [pruneWalk, frontWalk]
  | cons p t ih =>
    intro prev
    simp only [pruneWalk, frontWalk]
    split_ifs
    · exact List.nil_sublist _
    · exact (ih p).trans (List.sublist_cons_self p _)
    · exact (ih p).cons₂ p

/-- C5: the pruner's output is a subsequence of its input (same order, no
synthesized peaks), its length is at most the input length, no kept peak
lies past the first inter-peak gap exceeding 1.55 times the robust median
gap (`stopFront`), the first input peak is always retained (`head?` is
preserved, in particular for inputs of length at least 3), and inputs with
fewer than 3 peaks (here: any 2-element truncation) are returned
unchanged. -/
theorem prune_peaks_invariants (peaks : List ℤ) :
    (prune_peaks peaks (31/20)).Sublist peaks ∧
      (prune_peaks peaks (31/20)).length ≤ peaks.length ∧
      (prune_peaks peaks (31/20)).Sublist (stopFront peaks (31/20)) ∧
      (prune_peaks peaks (31/20)).head? = peaks.head? ∧
      prune_peaks (peaks.take 2) (31/20) = peaks.take 2 := by
  have hsub : (prune_peaks peaks (31/20)).Sublist peaks := prune_peaks_sublist peaks _
  refine ⟨hsub, hsub.length_le, ?_, ?_, ?_⟩
  · match peaks with
    | [] => exact List.Sublist.refl _
    | [_] => exact List.Sublist.refl _
    | [_, _] => exact List.Sublist.refl _
    | p0 :: p1 :: p2 :: rest =>
      exact (pruneWalk_sublist_front _ _ (p1 :: p2 :: rest) p0).cons₂ p0
  · match peaks with
    | [] => rfl
    | [_] => rfl
    | [_, _] => rfl
    | p0 :: p1 :: p2 :: rest => rfl
  · match peaks with
    | [] => rfl
    | [_] => rfl
    | _ :: _ :: _ => rfl

theorem getD_mem : ∀ (l : List α) (i : ℕ) (d : α), i < l.length → l.getD i d ∈ l
  | a :: t, 0, _, _ => List.mem_cons_self a t
  | a :: t, i + 1, d, h =>
    List.mem_cons_of_mem a (getD_mem t i d (by simpa using h))
  | [], _, _, h => absurd h (by simp)

theorem innerStep_sub (boxes : List BBox) (thr : ℚ) (i : ℕ) (s : List ℕ) (j : ℕ) :
    s ⊆ innerStep boxes thr i s j := by
  unfold innerStep
  split_ifs <;> simp [List.subset_cons_self]

theorem nmsInner_sub (boxes : List BBox) (thr : ℚ) (i : ℕ) :
    ∀ (ord sup : List ℕ), sup ⊆ nmsInner boxes thr i ord sup := by
  intro ord
  induction ord with
  | nil => intro sup; simp [nmsInner]
  | cons j t ih =>
    intro sup
    exact (innerStep_sub boxes thr i sup j).trans (ih (innerStep boxes thr i sup j))

theorem nmsInner_complete (boxes : List BBox) (thr : ℚ) (i : ℕ) :
    ∀ (ord sup : List ℕ) (k : ℕ), k ∈ ord → k ≠ i →
      iouGE (bboxD boxes i) (bboxD boxes k) thr = true →
      k ∈ nmsInner boxes thr i ord sup := by
  intro ord
  induction ord with
  | nil => intro sup k hk; simp at hk
  | cons j t ih =>
    intro sup k hk hki hio
    rcases List.mem_cons.mp hk with rfl | hk2
    · by_cases hs : k ∈ sup
      · exact nmsInner_sub boxes thr i t _ (innerStep_sub boxes thr i sup k hs)
      · have : innerStep boxes thr i sup k = k :: sup := by
          unfold innerStep
          rw [if_neg (by simp [hs, hki]), if_pos hio]
        exact nmsInner_sub boxes thr i t _ (this ▸ List.mem_cons_self k sup)
    · exact ih (innerStep boxes thr i sup j) k hk2 hki hio

theorem nmsLoop_mem (boxes : List BBox) (thr : ℚ) (ord : List ℕ) :
    ∀ (rest sup : List ℕ) (k : ℕ), k ∈ nmsLoop boxes thr ord rest sup →
      k ∈ rest ∧ k ∉ sup := by
  intro rest
  induction rest with
  | nil => intro sup k hk; simp [nmsLoop] at hk
  | cons i t ih =>
    intro sup k hk
    rw [nmsLoop] at hk
    split_ifs at hk with hi
    · obtain ⟨h1, h2⟩ := ih sup k hk
      exact ⟨List.mem_cons_of_mem i h1, h2⟩
    · rcases List.mem_cons.mp hk with rfl | hk2
      · exact ⟨List.mem_cons_self k t, hi⟩
      · obtain ⟨h1, h2⟩ := ih _ k hk2
        refine ⟨List.mem_cons_of_mem i h1, fun hsup => h2 ?_⟩
        exact nmsInner_sub boxes thr i ord sup hsup

theorem nmsLoop_pairwise (boxes : List BBox) (thr : ℚ) (ord : List ℕ) :
    ∀ (rest sup : List ℕ), rest.Nodup → (∀ r ∈ rest, r ∈ ord) →
      List.Pairwise
        (fun i j => iouGE (bboxD boxes i) (bboxD boxes j) thr = false)
        (nmsLoop boxes thr ord rest sup) := by
  intro rest
  induction rest with
  | nil => intro sup _ _; simp [nmsLoop]
  | cons i t ih =>
    intro sup hnd hsub
    rw [nmsLoop]
    split_ifs with hi
    · exact ih sup hnd.of_cons fun r hr => hsub r (List.mem_cons_of_mem i hr)
    · refine List.Pairwise.cons ?_ (ih _ hnd.of_cons fun r hr => hsub r (List.mem_cons_of_mem i hr))
      intro k hk
      obtain ⟨hk1, hk2⟩ := nmsLoop_mem boxes thr ord t _ k hk
      have hki : k ≠ i := fun h => (List.nodup_cons.mp hnd).1 (h ▸ hk1)
      cases hio : iouGE (bboxD boxes i) (bboxD boxes k) thr with
      | false => rfl
      | true =>
        exact absurd
          (nmsInner_complete boxes thr i ord sup k
            (hsub k (List.mem_cons_of_mem i hk1)) hki hio) hk2

theorem interW_le_w1 (b1 b2 : BBox) : interW b1 b2 ≤ b1.w := by
  unfold interW
  have h1 : min (b1.x + b1.w) (b2.x + b2.w) ≤ b1.x + b1.w := min_le_left _ _
  have h2 : b1.x ≤ max b1.x b2.x := le_max_left _ _
  omega

theorem interH_le_h1 (b1 b2 : BBox) : interH b1 b2 ≤ b1.h := by
  unfold interH
  have h1 : min (b1.y + b1.h) (b2.y + b2.h) ≤ b1.y + b1.h := min_le_left _ _
  have h2 : b1.y ≤ max b1.y b2.y := le_max_left _ _
  omega

theorem interW_le_w2 (b1 b2 : BBox) : interW b1 b2 ≤ b2.w := by
  unfold interW
  have h1 : min (b1.x + b1.w) (b2.x + b2.w) ≤ b2.x + b2.w := min_le_right _ _
  have h2 : b2.x ≤ max b1.x b2.x := le_max_right _ _
  omega

theorem interH_le_h2 (b1 b2 : BBox) : interH b1 b2 ≤ b2.h := by
  unfold interH
  have h1 : min (b1.y + b1.h) (b2.y + b2.h) ≤ b2.y + b2.h := min_le_right _ _
  have h2 : b2.y ≤ max b1.y b2.y := le_max_right _ _
  omega

theorem unionA_pos {b1 b2 : BBox} (hw : 0 < interW b1 b2) (hh : 0 < interH b1 b2) :
    0 < unionA b1 b2 := by
  have hA1 : interA b1 b2 ≤ area b1 := by
    unfold interA area
    exact mul_le_mul (interW_le_w1 b1 b2) (interH_le_h1 b1 b2) (le_of_lt hh)
      (le_trans (le_of_lt hw) (interW_le_w1 b1 b2))
  have hA2 : interA b1 b2 ≤ area b2 := by
    unfold interA area
    exact mul_le_mul (interW_le_w2 b1 b2) (interH_le_h2 b1 b2) (le_of_lt hh)
      (le_trans (le_of_lt hw) (interW_le_w2 b1 b2))
  have hI : 0 < interA b1 b2 := mul_pos hw hh
  unfold unionA
  omega

theorem iou_lt_of_iouGE_false {b1 b2 : BBox} {thr : ℚ} (hthr : 0 < thr)
    (h : iouGE b1 b2 thr = false) : iou b1 b2 < thr := by
  unfold iouGE at h
  unfold iou
  split_ifs with hov
  · exact hthr
  · rw [if_neg hov] at h
    push_neg at hov
    have hu : 0 < unionA b1 b2 := unionA_pos (by omega) (by omega)
    rcases Bool.and_eq_false_iff.mp h with h1 | h2
    · exact absurd hu (by simpa using h1)
    · have : ¬ thr ≤ (interA b1 b2 : ℚ) / (unionA b1 b2 : ℚ) := by simpa using h2
      exact lt_of_not_le this

theorem nmsOrder_nodup (boxes : List BBox) : (nmsOrder boxes).Nodup :=
  ((sortBy_perm _ _).nodup_iff).mpr (List.nodup_range _)

theorem nms_subset (boxes : List BBox) (thr : ℚ) :
    ∀ b ∈ nms boxes thr, b ∈ boxes := by
  intro b hb
  unfold nms at hb
  split_ifs at hb with he
  · simp at hb
  · obtain ⟨i, hi, rfl⟩ := List.mem_map.mp hb
    have h1 := (nmsLoop_mem boxes thr _ _ _ i hi).1
    have h2 : i ∈ List.range boxes.length := mem_sortBy.mp h1
    exact getD_mem boxes i _ (List.mem_range.mp h2)

theorem nms_kept_pairwise (boxes : List BBox) (thr : ℚ) (hthr : 0 < thr) :
    List.Pairwise (fun b1 b2 => iou b1 b2 < thr) (nms boxes thr) := by
  unfold nms
  split_ifs with he
  · simp
  · rw [List.pairwise_map]
    exact
      (nmsLoop_pairwise boxes thr (nmsOrder boxes) (nmsOrder boxes) []
        (nmsOrder_nodup boxes) (fun r hr => hr)).imp
      (fun hij => iou_lt_of_iouGE_false hthr hij)

/-- C3 (amended): for every input box list and every positive threshold,
every output box of the suppressor is one of the input boxes, and every
pair of output boxes has IoU strictly below the threshold (the greedy
largest-area-first suppression of `_nms`). -/
theorem nms_output_sound (boxes : List BBox) (thr : ℚ) (hthr : 0 < thr) :
    (∀ b ∈ nms boxes thr, b ∈ boxes) ∧
      List.Pairwise (fun b1 b2 => iou b1 b2 < thr) (nms boxes thr) :=
  ⟨nms_subset boxes thr, nms_kept_pairwise boxes thr hthr⟩

/-- C3 counterexample: at threshold 0 two disjoint boxes are both kept
(the code skips empty intersections instead of suppressing), and their IoU
is 0, which is not strictly below the threshold 0. -/
theorem nms_zero_threshold_cex :
    nms [⟨0, 0, 1, 1⟩, ⟨5, 5, 1, 1⟩] 0 = [⟨0, 0, 1, 1⟩, ⟨5, 5, 1, 1⟩] ∧
      iou ⟨0, 0, 1, 1⟩ ⟨5, 5, 1, 1⟩ = 0 ∧
      ¬ iou ⟨0, 0, 1, 1⟩ ⟨5, 5, 1, 1⟩ < 0 := by
  refine ⟨?_, ?_, ?_⟩
  · decide
  · decide
  · decide

/-- Witness for the C3 theorem at a concrete box list and the default
threshold 0.4. -/
theorem nms_output_sound_witness :
    (∀ b ∈ nms [⟨0, 0, 10, 10⟩, ⟨0, 0, 10, 10⟩, ⟨20, 0, 4, 4⟩] (2/5), b ∈
        [⟨0, 0, 10, 10⟩, ⟨0, 0, 10, 10⟩, ⟨20, 0, 4, 4⟩]) ∧
      List.Pairwise (fun b1 b2 => iou b1 b2 < 2/5)
        (nms [⟨0, 0, 10, 10⟩, ⟨0, 0, 10, 10⟩, ⟨20, 0, 4, 4⟩] (2/5)) :=
  nms_output_sound [⟨0, 0, 10, 10⟩, ⟨0, 0, 10, 10⟩, ⟨20, 0, 4, 4⟩] (2/5) (by norm_num)

theorem pairsOf_mem : ∀ (l : List ℤ) (a b : ℤ), (a, b) ∈ pairsOf l → a ∈ l ∧ b ∈ l := by
  intro l
  induction l with
  | nil => intro a b h; simp [pairsOf] at h
  | cons x t ih =>
    intro a b h
    match t, h with
    | [], h => simp [pairsOf] at h
    | y :: t2, h =>
      rw [pairsOf] at h
      rcases List.mem_cons.mp h with heq | hmem
      · simp only [Prod.mk.injEq] at heq
        obtain ⟨rfl, rfl⟩ := heq
        exact ⟨List.mem_cons_self _ _, List.mem_cons_of_mem _ (List.mem_cons_self _ _)⟩
      · obtain ⟨h1, h2⟩ := ih a b hmem
        exact ⟨List.mem_cons_of_mem _ h1, List.mem_cons_of_mem _ h2⟩

theorem clampTitle_default_bounds (t : ℤ) :
    22 ≤ clampTitle defaultConfig t ∧ clampTitle defaultConfig t ≤ 80 := by
  unfold clampTitle defaultConfig
  constructor
  · exact le_max_left _ _
  · exact max_le (by norm_num) (min_le_right _ _)

theorem mkTitleBox_inBounds {img_w img_h cx1 cx2 th p : ℤ}
    (hcx1 : 0 ≤ cx1) (hcx2 : cx2 ≤ img_w) (hwide : 100 ≤ cx2 - cx1)
    (hth : 22 ≤ th) (hp0 : 0 ≤ p) (hp1 : p < img_h) :
    inBounds img_w img_h (mkTitleBox defaultConfig img_h (cx1 + 4) (cx2 - 4) th p) := by
  unfold mkTitleBox inBounds defaultConfig
  simp only
  omega

theorem processCols_inBounds
    (img_w img_h : ℤ) (rawPeaks : ℤ → ℤ → List ℤ) (bright : ℤ → ℤ → Bool)
    (hp : ∀ a b : ℤ, ∀ p ∈ rawPeaks a b, 0 ≤ p ∧ p < img_h) :
    ∀ (ranges : List (ℤ × ℤ)) (fb : ℤ),
      (∀ pr ∈ ranges, 0 ≤ pr.1 ∧ pr.2 ≤ img_w) → 22 ≤ fb → fb ≤ 80 →
      ∀ bx ∈ processCols defaultConfig img_h rawPeaks bright ranges fb,
        inBounds img_w img_h bx := by
  intro ranges
  induction ranges with
  | nil => intro fb _ _ _ bx hbx; simp [processCols] at hbx
  | cons pr rest ih =>
    obtain ⟨cx1, cx2⟩ := pr
    intro fb hr hfb1 hfb2 bx hbx
    have hrest : ∀ pr ∈ rest, 0 ≤ pr.1 ∧ pr.2 ≤ img_w :=
      fun q hq => hr q (List.mem_cons_of_mem _ hq)
    have hcx : 0 ≤ cx1 ∧ cx2 ≤ img_w := hr (cx1, cx2) (List.mem_cons_self _ _)
    rw [processCols] at hbx
    set peaks :=
      prune_peaks
        (isort (rawPeaks (cx1 + defaultConfig.col_x_padding)
          (cx2 - defaultConfig.col_x_padding)))
        (31/20) with hpeaks
    set th := if 2 ≤ peaks.length then titleHeight defaultConfig peaks else fb with hth
    by_cases h1 : cx2 - cx1 < defaultConfig.col_min_width_px
    · rw [if_pos h1] at hbx; exact ih fb hrest hfb1 hfb2 bx hbx
    · rw [if_neg h1] at hbx
      by_cases h2 :
          bright (cx1 + defaultConfig.col_x_padding)
            (cx2 - defaultConfig.col_x_padding) = false
      · rw [if_pos h2] at hbx; exact ih fb hrest hfb1 hfb2 bx hbx
      · rw [if_neg h2] at hbx
        have hthb : 22 ≤ th ∧ th ≤ 80 := by
          rw [hth]
          split_ifs
          · exact ⟨(clampTitle_default_bounds _).1, (clampTitle_default_bounds _).2⟩
          · exact ⟨hfb1, hfb2⟩
        by_cases h3 : peaks.length < defaultConfig.col_min_peaks
        · rw [if_pos h3] at hbx; exact ih fb hrest hfb1 hfb2 bx hbx
        · rw [if_neg h3] at hbx
          rcases List.mem_append.mp hbx with hmap | hrec
          · obtain ⟨p, hpmem, rfl⟩ := List.mem_map.mp hmap
            have hpraw :
                p ∈ rawPeaks (cx1 + defaultConfig.col_x_padding)
                  (cx2 - defaultConfig.col_x_padding) := by
              have h4 : p ∈
                  isort (rawPeaks (cx1 + defaultConfig.col_x_padding)
                    (cx2 - defaultConfig.col_x_padding)) :=
                (prune_peaks_sublist _ _).subset (hpeaks ▸ hpmem)
              exact mem_sortBy.mp h4
            obtain ⟨hp0, hp1⟩ := hp _ _ p hpraw
            have h1b : 100 ≤ cx2 - cx1 := by
              simpa [defaultConfig] using not_lt.mp h1
            show inBounds img_w img_h
              (mkTitleBox defaultConfig img_h (cx1 + defaultConfig.col_x_padding)
                (cx2 - defaultConfig.col_x_padding) th p)
            have : defaultConfig.col_x_padding = 4 := rfl
            rw [this]
            exact mkTitleBox_inBounds hcx.1 hcx.2 h1b hthb.1 hp0 hp1
          · exact ih th hrest hthb.1 hthb.2 bx hrec

/-- C2: under the default detection configuration, every box returned by
`detect_cards` is an axis-aligned rectangle with positive width and height
lying fully within the image bounds, for any image dimensions, any
separator positions inside the image, and any raw peak positions inside
the image height (the ranges `find_peaks` guarantees for indices into the
column/row profiles). -/
theorem detect_cards_inBounds
    (img_w img_h : ℤ) (seps : List ℤ) (rawPeaks : ℤ → ℤ → List ℤ)
    (bright : ℤ → ℤ → Bool)
    (hw : 0 ≤ img_w)
    (hs : ∀ s ∈ seps, 0 ≤ s ∧ s ≤ img_w)
    (hp : ∀ a b : ℤ, ∀ p ∈ rawPeaks a b, 0 ≤ p ∧ p < img_h) :
    ∀ bx ∈ detect_cards defaultConfig img_w img_h seps rawPeaks bright,
      inBounds img_w img_h bx := by
  intro bx hbx
  unfold detect_cards at hbx
  have h1 := mem_sortBy.mp hbx
  have h2 := nms_subset _ _ bx h1
  have hall : ∀ x ∈ (0 :: (seps ++ [img_w]) : List ℤ), 0 ≤ x ∧ x ≤ img_w := by
    intro x hx
    rcases List.mem_cons.mp hx with rfl | hx2
    · exact ⟨le_refl 0, hw⟩
    · rcases List.mem_append.mp hx2 with hxs | hxe
      · exact hs x hxs
      · have : x = img_w := by simpa using hxe
        subst this
        exact ⟨hw, le_refl _⟩
  refine processCols_inBounds img_w img_h rawPeaks bright hp _ _ ?_ (by decide) (by decide) bx h2
  intro pr hpr
  obtain ⟨a, b⟩ := pr
  obtain ⟨ha, hb⟩ := pairsOf_mem _ a b hpr
  exact ⟨(hall a ha).1, (hall b hb).2⟩

/-- Witness for the C2 theorem: on a 120 x 500 image with one 120-px-wide
column and eight raw peaks 50..400, the first detected box is
`(4, 42, 112, 22)` and the theorem applied to its membership places it in
bounds. -/
theorem detect_cards_inBounds_witness : inBounds 120 500 ⟨4, 42, 112, 22⟩ := by
  have hs8 : isort [50, 100, 150, 200, 250, 300, 350, 400] =
      [50, 100, 150, 200, 250, 300, 350, 400] := by decide
  have hg : gapsOf [50, 100, 150, 200, 250, 300, 350, 400] =
      [50, 50, 50, 50, 50, 50, 50] := by decide
  have hs7 : isort [50, 50, 50, 50, 50, 50, 50] = [50, 50, 50, 50, 50, 50, 50] := by
    decide
  have h75 : percentile [50, 50, 50, 50, 50, 50, 50] 75 = 50 := by
    have hidx : ⌊(75 * (((7:ℕ):ℚ) - 1) / 100)⌋ = 4 := by norm_num
    rw [percentile, hs7]
    norm_num [interpAt, hidx, List.getD]
    simp
  have h50 : percentile [50, 50, 50, 50, 50, 50, 50] 50 = 50 := by
    have hidx : ⌊(50 * (((7:ℕ):ℚ) - 1) / 100)⌋ = 3 := by norm_num
    rw [percentile, hs7]
    norm_num [interpAt, hidx, List.getD]
    simp
  have hm : robustGap [50, 50, 50, 50, 50, 50, 50] = 50 := by
    rw [robustGap]
    norm_num [h75, npmedian, h50]
  have hpk : prune_peaks (isort [50, 100, 150, 200, 250, 300, 350, 400]) (31/20) =
      [50, 100, 150, 200, 250, 300, 350, 400] := by
    rw [hs8, prune_peaks, hg, hm]
    norm_num [pruneWalk]
  have hth : titleHeight defaultConfig [50, 100, 150, 200, 250, 300, 350, 400] = 22 := by
    rw [titleHeight, hg]
    have hmean : npmean [50, 50, 50, 50, 50, 50, 50] = 50 := by
      norm_num [npmean, List.foldl]
    rw [hmean]
    have htr : pytrunc (50 * defaultConfig.title_fraction) = 20 := by
      norm_num [pytrunc, defaultConfig]
    rw [htr]
    decide
  have hproc : processCols defaultConfig 500
      (fun _ _ => [50, 100, 150, 200, 250, 300, 350, 400]) (fun _ _ => true)
      (pairsOf (0 :: ([] : List ℤ) ++ [120])) defaultConfig.title_min_px =
      [⟨4, 42, 112, 22⟩, ⟨4, 92, 112, 22⟩, ⟨4, 142, 112, 22⟩, ⟨4, 192, 112, 22⟩,
        ⟨4, 242, 112, 22⟩, ⟨4, 292, 112, 22⟩, ⟨4, 342, 112, 22⟩,
        ⟨4, 392, 112, 22⟩] := by
    rw [show (0 :: ([] : List ℤ) ++ [120]) = [0, 120] from rfl]
    rw [show pairsOf [0, 120] = [(0, 120)] from rfl]
    rw [processCols]
    rw [if_neg (by decide)]
    rw [if_neg (by decide)]
    simp only [hpk, hth]
    rw [if_neg (by decide)]
    rw [if_pos (by decide)]
    rw [processCols]
    decide
  have hdet : detect_cards defaultConfig 120 500 []
      (fun _ _ => [50, 100, 150, 200, 250, 300, 350, 400]) (fun _ _ => true) =
      [⟨4, 42, 112, 22⟩, ⟨4, 92, 112, 22⟩, ⟨4, 142, 112, 22⟩, ⟨4, 192, 112, 22⟩,
        ⟨4, 242, 112, 22⟩, ⟨4, 292, 112, 22⟩, ⟨4, 342, 112, 22⟩,
        ⟨4, 392, 112, 22⟩] := by
    rw [detect_cards, hproc]
    decide
  refine detect_cards_inBounds 120 500 []
    (fun _ _ => [50, 100, 150, 200, 250, 300, 350, 400]) (fun _ _ => true)
    (by norm_num) (by intro s hmem; simp at hmem)
    (by
      intro a b p hmem
      simp only [List.mem_cons, List.not_mem_nil, or_false] at hmem
      rcases hmem with rfl | rfl | rfl | rfl | rfl | rfl | rfl | rfl <;> norm_num)
    ⟨4, 42, 112, 22⟩ ?_
  rw [hdet]
  exact List.mem_cons_self _ _

theorem mem_pyStripChars {l : List Char} {c : Char} (h : c ∈ pyStripChars l) :
    c ∈ l := by
  unfold pyStripChars at h
  rw [List.mem_reverse] at h
  have h2 := (List.dropWhile_suffix pySpace).subset h
  rw [List.mem_reverse] at h2
  exact (List.dropWhile_suffix pySpace).subset h2

theorem mem_collapseWS :
    ∀ (b : Bool) (l : List Char) (c : Char), c ∈ collapseWS b l → c = ' ' ∨ c ∈ l := by
  intro b l
  induction l generalizing b with
  | nil => intro c h; simp [collapseWS] at h
  | cons a rest ih =>
    intro c h
    rw [collapseWS] at h
    split_ifs at h with h1 h2
    · rcases ih true c h with h3 | h3
      · exact Or.inl h3
      · exact Or.inr (List.mem_cons_of_mem a h3)
    · rcases List.mem_cons.mp h with rfl | h3
      · exact Or.inl rfl
      · rcases ih true c h3 with h4 | h4
        · exact Or.inl h4
        · exact Or.inr (List.mem_cons_of_mem a h4)
    · rcases List.mem_cons.mp h with rfl | h3
      · exact Or.inr (List.mem_cons_self _ _)
      · rcases ih false c h3 with h4 | h4
        · exact Or.inl h4
        · exact Or.inr (List.mem_cons_of_mem _ h4)

theorem collapseWS_head_not_space :
    ∀ (l : List Char) (c : Char), (collapseWS true l).head? = some c → pySpace c = false := by
  intro l
  induction l with
  | nil => intro c h; simp [collapseWS] at h
  | cons a rest ih =>
    intro c h
    by_cases h1 : pySpace a = true
    · rw [collapseWS, if_pos h1, if_pos rfl] at h
      exact ih c h
    · rw [collapseWS, if_neg h1] at h
      simp only [List.head?_cons, Option.some.injEq] at h
      subst h
      simpa using h1

theorem collapseWS_chain :
    ∀ (b : Bool) (l : List Char),
      List.Chain' (fun a c => ¬(pySpace a = true ∧ pySpace c = true)) (collapseWS b l) := by
  intro b l
  induction l generalizing b with
  | nil => simp [collapseWS]
  | cons a rest ih =>
    by_cases h1 : pySpace a = true
    · cases b with
      | true =>
        rw [collapseWS, if_pos h1, if_pos rfl]
        exact ih true
      | false =>
        rw [collapseWS, if_pos h1, if_neg (by simp)]
        refine List.chain'_cons'.mpr ⟨?_, ih true⟩
        intro y hy
        have hns := collapseWS_head_not_space rest y hy
        intro hc
        rw [hns] at hc
        exact Bool.false_ne_true hc.2
    · rw [collapseWS, if_neg h1]
      refine List.chain'_cons'.mpr ⟨?_, ih false⟩
      intro y hy hc
      exact h1 hc.1

theorem dropWhile_head_not {p : Char → Bool} :
    ∀ (l : List Char) (c : Char), (l.dropWhile p).head? = some c → p c = false := by
  intro l
  induction l with
  | nil => intro c h; simp at h
  | cons a rest ih =>
    intro c h
    rw [List.dropWhile_cons] at h
    split_ifs at h with h1
    · exact ih c h
    · simp only [List.head?_cons, Option.some.injEq] at h
      subst h
      simpa using h1

theorem getLast?_dropWhile {p : Char → Bool} :
    ∀ (l : List Char), l.dropWhile p ≠ [] → (l.dropWhile p).getLast? = l.getLast? := by
  intro l
  induction l with
  | nil => intro h; simp at h
  | cons a rest ih =>
    intro h
    rw [List.dropWhile_cons]
    rw [List.dropWhile_cons] at h
    split_ifs at h with h1
    · rw [if_pos h1, ih h]
      match rest, h with
      | b :: w, _ => rw [List.getLast?_cons_cons]
    · rw [if_neg h1]

theorem pyStripChars_chain {l : List Char}
    (h : List.Chain' (fun a c => ¬(pySpace a = true ∧ pySpace c = true)) l) :
    List.Chain' (fun a c => ¬(pySpace a = true ∧ pySpace c = true)) (pyStripChars l) := by
  unfold pyStripChars
  have h1 := h.suffix (List.dropWhile_suffix pySpace)
  have h2 : List.Chain' (flip fun a c => ¬(pySpace a = true ∧ pySpace c = true))
      (l.dropWhile pySpace) :=
    h1.imp (fun a c hac hc => hac ⟨hc.2, hc.1⟩)
  have h3 := List.chain'_reverse.mpr h2
  have h4 := h3.suffix (List.dropWhile_suffix pySpace)
  have h5 : List.Chain' (flip fun a c => ¬(pySpace a = true ∧ pySpace c = true))
      ((l.dropWhile pySpace).reverse.dropWhile pySpace) :=
    h4.imp (fun a c hac hc => hac ⟨hc.2, hc.1⟩)
  exact List.chain'_reverse.mpr h5

theorem pyStripChars_head {l : List Char} {c : Char}
    (h : (pyStripChars l).head? = some c) : pySpace c = false := by
  unfold pyStripChars at h
  rw [List.head?_reverse] at h
  have hne : (l.dropWhile pySpace).reverse.dropWhile pySpace ≠ [] := by
    intro he
    rw [he] at h
    simp at h
  rw [getLast?_dropWhile _ hne, List.getLast?_reverse] at h
  exact dropWhile_head_not _ c h

theorem pyStripChars_last {l : List Char} {c : Char}
    (h : (pyStripChars l).getLast? = some c) : pySpace c = false := by
  unfold pyStripChars at h
  rw [List.getLast?_reverse] at h
  exact dropWhile_head_not _ c h

/-- C7 counterexample: the first substitution of `_clean` keeps commas
(`[^A-Za-z ',\x2d]` also retains `,`), so `"a,b"` is returned unchanged
although the comma is not in the permitted set the specification states
(letters, space, apostrophe, hyphen). -/
theorem ocrClean_comma_cex :
    ocrClean ['a', ',', 'b'] = ['a', ',', 'b'] ∧ specAllowed ',' = false := by
  constructor
  · decide
  · decide

/-- C7 (amended): for every raw OCR string, the cleaned text contains only
characters from the kept set of the code — letters, space, apostrophe,
hyphen, and also comma — with no two adjacent whitespace characters (runs
collapsed to a single space) and no leading or trailing whitespace. -/
theorem ocrClean_postconditions (l : List Char) :
    (∀ c ∈ ocrClean l, allowedChar c = true) ∧
      List.Chain' (fun a c => ¬(pySpace a = true ∧ pySpace c = true)) (ocrClean l) ∧
      (∀ c, (ocrClean l).head? = some c → pySpace c = false) ∧
      (∀ c, (ocrClean l).getLast? = some c → pySpace c = false) := by
  refine ⟨?_, ?_, ?_, ?_⟩
  · intro c hc
    have h1 := mem_pyStripChars hc
    rcases mem_collapseWS false _ c h1 with rfl | h2
    · decide
    · exact (List.mem_filter.mp h2).2
  · exact pyStripChars_chain (collapseWS_chain false _)
  · intro c hc
    exact pyStripChars_head hc
  · intro c hc
    exact pyStripChars_last hc

/-- Witness for the C7 theorem at a concrete noisy OCR string. -/
theorem ocrClean_postconditions_witness :
    (∀ c ∈ ocrClean [' ', 'M', 'o', 'x', ' ', ' ', 'J', 'e', 't', ' '],
        allowedChar c = true) ∧
      List.Chain' (fun a c => ¬(pySpace a = true ∧ pySpace c = true))
        (ocrClean [' ', 'M', 'o', 'x', ' ', ' ', 'J', 'e', 't', ' ']) ∧
      (∀ c, (ocrClean [' ', 'M', 'o', 'x', ' ', ' ', 'J', 'e', 't', ' ']).head? = some c →
        pySpace c = false) ∧
      (∀ c, (ocrClean [' ', 'M', 'o', 'x', ' ', ' ', 'J', 'e', 't', ' ']).getLast? = some c →
        pySpace c = false) :=
  ocrClean_postconditions [' ', 'M', 'o', 'x', ' ', ' ', 'J', 'e', 't', ' ']

theorem rhe_ge_floor (x : ℚ) : ⌊x⌋ ≤ rhe x := by
  unfold rhe
  split_ifs <;> omega

theorem round3_ge {q : ℚ} {k : ℤ} (h : ((k : ℤ) : ℚ) / 100 ≤ q) :
    ((k : ℤ) : ℚ) / 100 ≤ round3 q := by
  have h1 : ((10 * k : ℤ) : ℚ) ≤ q * 1000 := by
    push_cast
    nlinarith
  have h2 : (10 * k : ℤ) ≤ ⌊q * 1000⌋ := Int.le_floor.mpr h1
  have h3 : (10 * k : ℤ) ≤ rhe (q * 1000) := le_trans h2 (rhe_ge_floor _)
  unfold round3
  rw [div_le_div_iff₀ (by norm_num) (by norm_num)]
  have h4 : ((10 * k : ℤ) : ℚ) ≤ ((rhe (q * 1000) : ℤ) : ℚ) := by exact_mod_cast h3
  push_cast at h4 ⊢
  nlinarith

theorem extract_mono (score : String → ℚ) (cutoff : ℚ) :
    ∀ (l : List String) (acc : Option (String × ℚ)) (n : String) (s : ℚ),
      l.foldl (extractStep score cutoff) acc = some (n, s) →
      ∀ b t, acc = some (b, t) → t ≤ s := by
  intro l
  induction l with
  | nil =>
    intro acc n s h b t hacc
    rw [List.foldl_nil] at h
    rw [hacc] at h
    simp only [Option.some.injEq, Prod.mk.injEq] at h
    exact h.2.le
  | cons c0 rest ih =>
    intro acc n s h b t hacc
    rw [List.foldl_cons] at h
    subst hacc
    by_cases hlt : t < score c0
    · have hstep : extractStep score cutoff (some (b, t)) c0 = some (c0, score c0) := by
        simp only [extractStep]
        rw [if_pos hlt]
      rw [hstep] at h
      exact le_trans (le_of_lt hlt) (ih _ n s h c0 (score c0) rfl)
    · have hstep : extractStep score cutoff (some (b, t)) c0 = some (b, t) := by
        simp only [extractStep]
        rw [if_neg hlt]
      rw [hstep] at h
      exact ih _ n s h b t rfl

theorem extract_cutoff (score : String → ℚ) (cutoff : ℚ) :
    ∀ (l : List String) (acc : Option (String × ℚ)) (n : String) (s : ℚ),
      l.foldl (extractStep score cutoff) acc = some (n, s) →
      (∀ b t, acc = some (b, t) → cutoff ≤ t) → cutoff ≤ s := by
  intro l
  induction l with
  | nil =>
    intro acc n s h hacc
    rw [List.foldl_nil] at h
    have := hacc n s h
    exact this
  | cons c0 rest ih =>
    intro acc n s h hacc
    rw [List.foldl_cons] at h
    refine ih _ n s h ?_
    intro b t hstep
    unfold extractStep at hstep
    match acc, hacc with
    | none, _ =>
      simp only at hstep
      split_ifs at hstep with h1
      · simp only [Option.some.injEq, Prod.mk.injEq] at hstep
        obtain ⟨rfl, rfl⟩ := hstep
        exact h1
    | some (b0, t0), hacc =>
      have ht0 : cutoff ≤ t0 := hacc b0 t0 rfl
      simp only at hstep
      split_ifs at hstep with h1 <;>
        simp only [Option.some.injEq, Prod.mk.injEq] at hstep
      · obtain ⟨rfl, rfl⟩ := hstep
        exact le_trans ht0 (le_of_lt h1)
      · obtain ⟨rfl, rfl⟩ := hstep
        exact ht0

theorem extract_origin (score : String → ℚ) (cutoff : ℚ) :
    ∀ (l : List String) (acc : Option (String × ℚ)) (n : String) (s : ℚ),
      l.foldl (extractStep score cutoff) acc = some (n, s) →
      acc = some (n, s) ∨ (n ∈ l ∧ s = score n) := by
  intro l
  induction l with
  | nil =>
    intro acc n s h
    rw [List.foldl_nil] at h
    exact Or.inl h
  | cons c0 rest ih =>
    intro acc n s h
    rw [List.foldl_cons] at h
    rcases ih _ n s h with hstep | hmem
    · simp only [extractStep] at hstep
      match acc with
      | none =>
        simp only at hstep
        split_ifs at hstep with h1
        · simp only [Option.some.injEq, Prod.mk.injEq] at hstep
          obtain ⟨rfl, rfl⟩ := hstep
          exact Or.inr ⟨List.mem_cons_self _ _, rfl⟩
      | some (b0, t0) =>
        simp only at hstep
        split_ifs at hstep with h1 <;>
          simp only [Option.some.injEq, Prod.mk.injEq] at hstep
        · obtain ⟨rfl, rfl⟩ := hstep
          exact Or.inr ⟨List.mem_cons_self _ _, rfl⟩
        · obtain ⟨rfl, rfl⟩ := hstep
          exact Or.inl rfl
    · exact Or.inr ⟨List.mem_cons_of_mem _ hmem.1, hmem.2⟩

theorem extract_max (score : String → ℚ) (cutoff : ℚ) :
    ∀ (l : List String) (acc : Option (String × ℚ)) (n : String) (s : ℚ),
      l.foldl (extractStep score cutoff) acc = some (n, s) →
      ∀ c ∈ l, score c ≤ s := by
  intro l
  induction l with
  | nil => intro acc n s _ c hc; simp at hc
  | cons c0 rest ih =>
    intro acc n s h c hc
    rw [List.foldl_cons] at h
    rcases List.mem_cons.mp hc with rfl | hc2
    · match acc with
      | none =>
        by_cases h1 : cutoff ≤ score c
        · have hstep : extractStep score cutoff none c = some (c, score c) := by
            unfold extractStep
            simp only
            rw [if_pos h1]
          rw [hstep] at h
          exact extract_mono score cutoff rest _ n s h c (score c) rfl
        · have hstep : extractStep score cutoff none c = none := by
            unfold extractStep
            simp only
            rw [if_neg h1]
          rw [hstep] at h
          have := extract_cutoff score cutoff rest none n s h (by intro b t ht; cases ht)
          exact le_trans (le_of_lt (lt_of_not_le h1)) this
      | some (b0, t0) =>
        by_cases h1 : t0 < score c
        · have hstep : extractStep score cutoff (some (b0, t0)) c = some (c, score c) := by
            unfold extractStep
            simp only
            rw [if_pos h1]
          rw [hstep] at h
          exact extract_mono score cutoff rest _ n s h c (score c) rfl
        · have hstep : extractStep score cutoff (some (b0, t0)) c = some (b0, t0) := by
            unfold extractStep
            simp only
            rw [if_neg h1]
          rw [hstep] at h
          exact le_trans (le_of_not_lt h1) (extract_mono score cutoff rest _ n s h b0 t0 rfl)
    · exact ih _ n s h c hc2

/-- C4 (amended): `fuzzy_match(query, t)` returns no-match whenever the
query is empty or the loaded catalog is empty; and whenever it returns
`(name, score)`, `name` is a catalog entry maximizing the weighted-ratio
similarity, the raw similarity is at least `t`, and the returned score is
the raw score divided by 100 and rounded to three decimals — hence still
never below `t / 100`. -/
theorem fuzzy_match_postconditions (wr : String → String → ℚ) (avail : Bool)
    (names : List String) (query : String) (t : ℤ) :
    ((query = "" ∨ names = []) → fuzzy_match wr avail names query t = none) ∧
      (∀ n s, fuzzy_match wr avail names query t = some (n, s) →
        n ∈ names ∧ (∀ c ∈ names, wr query c ≤ wr query n) ∧
          ((t : ℤ) : ℚ) ≤ wr query n ∧ s = round3 (wr query n / 100) ∧
          ((t : ℤ) : ℚ) / 100 ≤ s) := by
  constructor
  · intro h
    unfold fuzzy_match
    rw [if_pos h]
  · intro n s h
    unfold fuzzy_match at h
    split_ifs at h with h1 h2
    cases hex : extractOne (wr query) ((t : ℤ) : ℚ) names with
    | none =>
      rw [hex] at h
      simp at h
    | some pair =>
      obtain ⟨n0, s0⟩ := pair
      rw [hex] at h
      simp only [Option.some.injEq, Prod.mk.injEq] at h
      obtain ⟨rfl, rfl⟩ := h
      unfold extractOne at hex
      have horig := extract_origin (wr query) _ names none n0 s0 hex
      have hmax := extract_max (wr query) _ names none n0 s0 hex
      have hcut :=
        extract_cutoff (wr query) _ names none n0 s0 hex (by intro b t0 hbt; cases hbt)
      rcases horig with hbad | ⟨hmem, hsc⟩
      · cases hbad
      · subst hsc
        refine ⟨hmem, hmax, hcut, rfl, round3_ge ?_⟩
        exact (div_le_div_iff_of_pos_right (by norm_num)).mpr hcut

/-- C4 counterexample: with a scorer returning `69.53125` (a dyadic value,
exactly representable as a machine float) and threshold 50, the returned
score is `round(0.6953125, 3) = 0.695 = 139/200`, which is not the raw
score divided by 100. -/
theorem fuzzy_match_round_cex :
    fuzzy_match (fun _ _ => 2225/32) true ["a"] "q" 50 = some ("a", 139/200) ∧
      (139/200 : ℚ) ≠ (2225/32 : ℚ) / 100 := by
  constructor
  · unfold fuzzy_match
    rw [if_neg (by simp), if_neg (by simp)]
    unfold extractOne
    rw [List.foldl_cons, List.foldl_nil]
    simp only [extractStep]
    rw [if_pos (by norm_num)]
    unfold round3 rhe
    norm_num
  · norm_num

/-- Witness for the C4 theorem at a concrete scorer, catalog and query. -/
theorem fuzzy_match_postconditions_witness :
    (("Blt" = "" ∨ (["Bolt"] : List String) = []) →
        fuzzy_match (fun _ _ => (80 : ℚ)) true ["Bolt"] "Blt" 70 = none) ∧
      (∀ n s, fuzzy_match (fun _ _ => (80 : ℚ)) true ["Bolt"] "Blt" 70 = some (n, s) →
        n ∈ (["Bolt"] : List String) ∧
          (∀ c ∈ (["Bolt"] : List String), (80 : ℚ) ≤ 80) ∧
          ((70 : ℤ) : ℚ) ≤ 80 ∧ s = round3 (80 / 100) ∧ ((70 : ℤ) : ℚ) / 100 ≤ s) :=
  fuzzy_match_postconditions (fun _ _ => (80 : ℚ)) true ["Bolt"] "Blt" 70

/-- C8 counterexample: `_load` applies the `' // '` split only to JSON
object entries; a text-file line (or a plain JSON string item) is kept
whole.  Loading two text sources containing `"Lightning Bolt"` and
`"Lightning Bolt // Lightning Bolt"` yields a catalog with TWO entries,
the second not reduced to its first face. -/
theorem loadNames_txt_face_cex :
    loadNames [] [["Lightning Bolt"], ["Lightning Bolt // Lightning Bolt"]] =
      ["Lightning Bolt", "Lightning Bolt // Lightning Bolt"] ∧
      firstFace "Lightning Bolt // Lightning Bolt" = "Lightning Bolt" := by
  constructor
  · decide
  · decide

/-- C8 (amended): only JSON object entries (records with a `name` field)
have multi-faced names reduced to the first face; plain string items and
text lines are kept verbatim after trimming; the loaded catalog is a
deduplicated (and sorted) set; in particular a catalog loaded from a JSON
object entry `"Lightning Bolt // Lightning Bolt"` and a text line
`"Lightning Bolt"` contains exactly one entry, `"Lightning Bolt"`. -/
theorem loadNames_dedup_firstface (jsons : List JsonDoc) (txts : List (List String)) :
    (loadNames jsons txts).Nodup ∧
      (∀ name : String, itemNames (JItem.obj name) = [pyStripS (firstFace name)]) ∧
      (∀ s : String, itemNames (JItem.str s) = [pyStripS s]) ∧
      loadNames [JsonDoc.arr [JItem.obj "Lightning Bolt // Lightning Bolt"]]
        [["Lightning Bolt"]] = ["Lightning Bolt"] := by
  refine ⟨?_, fun _ => rfl, fun _ => rfl, by decide⟩
  exact ((sortBy_perm strLe _).nodup_iff).mpr (List.nodup_dedup _)

/-- C9 counterexample: on a freshly constructed service whose folder holds
the single name `"Foo"`, `fuzzy_match` with a perfect scorer returns
no-match and leaves the state unloaded — the load is NOT triggered —
whereas the claimed lazy-loading behaviour would return `("Foo", 1)`. -/
theorem fuzzy_match_no_lazy_load_cex :
    (fuzzy_match_op (fun _ _ => 100) true dbInit "Foo" 70).1 = none ∧
      (fuzzy_match_op (fun _ _ => 100) true dbInit "Foo" 70).2.loaded = false ∧
      loadNames [] [["Foo"]] = ["Foo"] ∧
      (fuzzy_match_claim_op (fun _ _ => 100) true [] [["Foo"]] dbInit "Foo" 70).1 =
        some ("Foo", 1) := by
  refine ⟨by decide, by decide, by decide, ?_⟩
  show fuzzy_match (fun _ _ => 100) true
      (ensure_loaded [] [["Foo"]] dbInit).cardNames "Foo" 70 = some ("Foo", 1)
  have h1 : (ensure_loaded [] [["Foo"]] dbInit).cardNames = ["Foo"] := by decide
  rw [h1]
  unfold fuzzy_match
  rw [if_neg (by simp), if_neg (by simp)]
  unfold extractOne
  rw [List.foldl_cons, List.foldl_nil]
  simp only [extractStep]
  rw [if_pos (by norm_num)]
  unfold round3 rhe
  norm_num

/-- C9 (amended): the catalog is loaded lazily on first use of the
`card_names` property, which is the only Name Resolver operation that
triggers the load (the check-in service instead loads eagerly at
construction via `ensure_loaded`); `fuzzy_match` and `search` never load
and never mutate the state; `ensure_loaded` on a loaded state is the
identity, so the catalog is loaded at most once and nothing mutates it
afterward. -/
theorem catalog_lifecycle (wr : String → String → ℚ) (avail : Bool)
    (jsons : List JsonDoc) (txts : List (List String)) (st : DBState)
    (query : String) (threshold : ℤ) (limit : ℕ) :
    (card_names_op jsons txts st).2.loaded = true ∧
      (card_names_op jsons txts st).1 =
        (if st.loaded then st.cardNames else loadNames jsons txts) ∧
      (fuzzy_match_op wr avail st query threshold).2 = st ∧
      (search_op wr avail st query limit).2 = st ∧
      (st.loaded = true → ensure_loaded jsons txts st = st) := by
  refine ⟨?_, ?_, rfl, rfl, ?_⟩
  · unfold card_names_op ensure_loaded
    split_ifs with h
    · exact h
    · rfl
  · unfold card_names_op ensure_loaded
    split_ifs <;> rfl
  · intro h
    unfold ensure_loaded
    rw [if_pos h]

/-- Witness for the C9 theorem: a loaded one-name state and the fresh
state. -/
theorem catalog_lifecycle_witness :
    (card_names_op [] [["Foo"]] dbInit).2.loaded = true ∧
      ensure_loaded [] [["Foo"]] ⟨["Foo"], true⟩ = ⟨["Foo"], true⟩ :=
  ⟨(catalog_lifecycle (fun _ _ => 0) true [] [["Foo"]] dbInit "q" 70 5).1,
    (catalog_lifecycle (fun _ _ => 0) true [] [["Foo"]] ⟨["Foo"], true⟩ "q" 70 5).2.2.2.2
      rfl⟩

/-- C6: a box whose clamped crop is at least 10 px wide and 5 px tall
always yields a DETECTED candidate, and a recognition miss (no OCR text,
or no fuzzy match) yields `recognized_name = none` and `match_score = 0`
rather than an omission or error; a box whose clamped crop is below the
minimum size in either dimension is silently dropped (`none`). -/
theorem process_card_region_miss (img_w img_h : ℤ)
    (readText : ℤ → ℤ → ℤ → ℤ → String) (fm : String → Option (String × ℚ))
    (thumb : ℤ → ℤ → ℤ → ℤ → String) (cube_id : ℤ) (bb : BBox) :
    ((min img_w (bb.x + bb.w) - max 0 bb.x < 10 ∨
        min img_h (bb.y + bb.h) - max 0 bb.y < 5) →
      process_card_region img_w img_h readText fm thumb cube_id bb = none) ∧
      (¬(min img_w (bb.x + bb.w) - max 0 bb.x < 10 ∨
          min img_h (bb.y + bb.h) - max 0 bb.y < 5) →
        ∃ c, process_card_region img_w img_h readText fm thumb cube_id bb = some c ∧
          c.status = CardStatus.DETECTED ∧
          ((readText (max 0 bb.x) (max 0 bb.y) (min img_w (bb.x + bb.w))
              (min img_h (bb.y + bb.h)) = "" ∨
            fm (readText (max 0 bb.x) (max 0 bb.y) (min img_w (bb.x + bb.w))
              (min img_h (bb.y + bb.h))) = none) →
            c.recognized_name = none ∧ c.match_score = 0)) := by
  constructor
  · intro h
    unfold process_card_region
    rw [if_pos h]
  · intro h
    refine ⟨_, by unfold process_card_region; rw [if_neg h], rfl, ?_⟩
    intro hm
    by_cases hraw :
        readText (max 0 bb.x) (max 0 bb.y) (min img_w (bb.x + bb.w))
          (min img_h (bb.y + bb.h)) = ""
    · constructor <;> simp [hraw]
    · rcases hm with hm | hm
      · exact absurd hm hraw
      · constructor <;> simp [hraw, hm]

/-- Witness for the C6 theorem: a 100 x 100 image with a 50 x 50 box whose
OCR is empty (the candidate is produced with `none` / 0), and a 5 x 5 box
(dropped). -/
theorem process_card_region_miss_witness :
    process_card_region 100 100 (fun _ _ _ _ => "") (fun _ => none)
        (fun _ _ _ _ => "") 7 ⟨0, 0, 5, 5⟩ = none ∧
      ∃ c, process_card_region 100 100 (fun _ _ _ _ => "") (fun _ => none)
          (fun _ _ _ _ => "") 7 ⟨0, 0, 50, 50⟩ = some c ∧
        c.status = CardStatus.DETECTED ∧
        c.recognized_name = none ∧ c.match_score = 0 := by
  constructor
  · exact (process_card_region_miss 100 100 (fun _ _ _ _ => "") (fun _ => none)
      (fun _ _ _ _ => "") 7 ⟨0, 0, 5, 5⟩).1 (by norm_num)
  · obtain ⟨c, hc, hst, hmiss⟩ :=
      (process_card_region_miss 100 100 (fun _ _ _ _ => "") (fun _ => none)
        (fun _ _ _ _ => "") 7 ⟨0, 0, 50, 50⟩).2 (by norm_num)
    obtain ⟨h1, h2⟩ := hmiss (Or.inl rfl)
    exact ⟨c, hc, hst, h1, h2⟩

/-- C10: for every Card Candidate with `recognized_name = none` and
non-empty raw text, `update_card_name(candidate, "Foo")` yields status
CONFIRMED and display name `"Foo"`, and changes no other recognition
field (raw text, recognized name, match score, bounding box). -/
theorem update_card_name_round_trip (card : Card)
    (h1 : card.recognized_name = none) (h2 : card.raw_ocr_text ≠ "") :
    (update_card_name card "Foo").status = CardStatus.CONFIRMED ∧
      display_name (update_card_name card "Foo") = "Foo" ∧
      (update_card_name card "Foo").raw_ocr_text = card.raw_ocr_text ∧
      (update_card_name card "Foo").recognized_name = card.recognized_name ∧
      (update_card_name card "Foo").match_score = card.match_score ∧
      (update_card_name card "Foo").bbox_x = card.bbox_x ∧
      (update_card_name card "Foo").bbox_y = card.bbox_y ∧
      (update_card_name card "Foo").bbox_width = card.bbox_width ∧
      (update_card_name card "Foo").bbox_height = card.bbox_height := by
  refine ⟨rfl, ?_, rfl, rfl, rfl, rfl, rfl, rfl, rfl⟩
  show pyOrS (some "Foo") _ = "Foo"
  simp only [pyOrS]
  rw [if_neg (by decide)]

/-- Witness for the C10 theorem at a concrete unresolved candidate. -/
theorem update_card_name_round_trip_witness :
    (update_card_name
        ⟨3, "Bolt", none, none, 0, CardStatus.DETECTED, 1, 2, 30, 12, [], ""⟩
        "Foo").status = CardStatus.CONFIRMED ∧
      display_name
        (update_card_name
          ⟨3, "Bolt", none, none, 0, CardStatus.DETECTED, 1, 2, 30, 12, [], ""⟩
          "Foo") = "Foo" ∧
      (update_card_name
        ⟨3, "Bolt", none, none, 0, CardStatus.DETECTED, 1, 2, 30, 12, [], ""⟩
        "Foo").raw_ocr_text = "Bolt" ∧
      (update_card_name
        ⟨3, "Bolt", none, none, 0, CardStatus.DETECTED, 1, 2, 30, 12, [], ""⟩
        "Foo").recognized_name = none ∧
      (update_card_name
        ⟨3, "Bolt", none, none, 0, CardStatus.DETECTED, 1, 2, 30, 12, [], ""⟩
        "Foo").match_score = 0 ∧
      (update_card_name
        ⟨3, "Bolt", none, none, 0, CardStatus.DETECTED, 1, 2, 30, 12, [], ""⟩
        "Foo").bbox_x = 1 ∧
      (update_card_name
        ⟨3, "Bolt", none, none, 0, CardStatus.DETECTED, 1, 2, 30, 12, [], ""⟩
        "Foo").bbox_y = 2 ∧
      (update_card_name
        ⟨3, "Bolt", none, none, 0, CardStatus.DETECTED, 1, 2, 30, 12, [], ""⟩
        "Foo").bbox_width = 30 ∧
      (update_card_name
        ⟨3, "Bolt", none, none, 0, CardStatus.DETECTED, 1, 2, 30, 12, [], ""⟩
        "Foo").bbox_height = 12 :=
  update_card_name_round_trip
    ⟨3, "Bolt", none, none, 0, CardStatus.DETECTED, 1, 2, 30, 12, [], ""⟩
    rfl (by decide)
